import Mathlib

/-!
Verification of the Alexa device/group reconciliation engine.

Shallow embedding of the core logic of a home-automation ↔ voice-assistant
group reconciliation tool.  Python dictionaries are modelled as association
lists with insert-or-overwrite semantics, Python sets as `Finset String`,
and the HTTP transport as functions from a call index to a status code
(or a success boolean where the source only inspects success).
-/

namespace AlexaManager

/-- Outcome of syncing one group's membership, mirroring the strings
"updated" / "skipped" / "error" returned by the source. -/
inductive SyncOutcome where
  | updated
  | skipped
  | error
deriving DecidableEq, Repr

/-- Embedding of api.sync_alexa_group_entities.  The sets
current_ids / desired_ids are built with set(...) in the source, modelled
by List.toFinset.  The second component of the result collects the
applianceIds payloads actually sent over the transport (empty in dry-run
and in the skipped branches); updateSucceeds abstracts the PUT call result. -/
def sync_alexa_group_entities (dryRun : Bool) (updateSucceeds : Bool)
    (currentIds desiredIds : List String) (mode : String) :
    SyncOutcome × List (Finset String) :=
  let current_ids : Finset String := currentIds.toFinset
  let desired_ids : Finset String := desiredIds.toFinset
  if mode = "update_only" then
    let to_add := desired_ids \ current_ids
    if to_add ≠ ∅ then
      let updated_ids := current_ids ∪ desired_ids
      if dryRun then (.updated, [])
      else if updateSucceeds then (.updated, [updated_ids])
      else (.error, [updated_ids])
    else (.skipped, [])
  else if mode = "full" then
    if current_ids ≠ desired_ids then
      if dryRun then (.updated, [])
      else if updateSucceeds then (.updated, [desired_ids])
      else (.error, [desired_ids])
    else (.skipped, [])
  else (.skipped, [])

/-- State of the discovery-convergence monitor, mirroring the DiscoveryState
class nested in api.wait_for_device_discovery. -/
structure DiscoveryState where
  initial_count : Nat
  last_counts : List Nat
  detected_increase : Bool
  stable_required : Nat
deriving DecidableEq, Repr

/-- Initial discovery state; the source constructor defaults stable_required to 3,
so callers in these theorems pass 3 explicitly. -/
def DiscoveryState.init (initial : Nat) (stable : Nat) : DiscoveryState :=
  { initial_count := initial, last_counts := [], detected_increase := false,
    stable_required := stable }

/-- Embedding of DiscoveryState.update: returns (converged?, next state). -/
def DiscoveryState.update (s : DiscoveryState) (count : Nat) : Bool × DiscoveryState :=
  if !s.detected_increase then
    if count > s.initial_count then
      (false, { s with detected_increase := true, last_counts := [count] })
    else
      (false, s)
  else
    let appended := s.last_counts ++ [count]
    let buf := if appended.length > s.stable_required then appended.tail else appended
    if buf.length = s.stable_required ∧ buf.all (fun x => x = buf.headD 0) then
      (true, { s with last_counts := buf })
    else
      (false, { s with last_counts := buf })

/-- Embedding of the poll loop driven by tenacity in wait_for_device_discovery:
each list element is the entity count observed by one poll; polling stops at
the first update that reports convergence; exhausting the list models the
wall-clock timeout, after which the caller receives False (not an exception). -/
def pollUntilStable : DiscoveryState → List Nat → Bool
  | _, [] => false
  | s, c :: rest =>
    let r := s.update c
    if r.1 then true else pollUntilStable r.2 rest

/-- Helper: while no increase above the initial count has been observed, a poll
with a count not exceeding the initial count leaves the monitor state unchanged,
so a whole sequence of such polls never converges. -/
theorem pollUntilStable_no_increase (s : DiscoveryState) (counts : List Nat)
    (hd : s.detected_increase = false)
    (h : ∀ c ∈ counts, c ≤ s.initial_count) :
    pollUntilStable s counts = false := by
  induction counts with
  | nil => rfl
  | cons c rest ih =>
    have hc : ¬ c > s.initial_count := by
      have := h c (by simp)
      omega
    unfold pollUntilStable
    have hupd : s.update c = (false, s) := by
      unfold DiscoveryState.update
      rw [hd]
      simp [hc]
    rw [hupd]
    simp only [if_neg Bool.false_ne_true]
    exact ih (fun x hx => h x (by simp [hx]))

/-- C1: In update_only mode the sync computes toAdd = desired minus current over the
two appliance-id sets.  If toAdd is non-empty the membership sent for the update is
exactly current union desired (a superset of current: no member removed) and the
outcome is updated; if toAdd is empty the outcome is skipped and no mutating call is
issued, for any dry-run/transport setting.  Concretely, for current = [a, b] and
desired = [b, c] the sent membership is a superset of the set containing a, b and c,
with outcome updated. -/
theorem update_only_mode_correct (currentIds desiredIds : List String) :
    ((desiredIds.toFinset \ currentIds.toFinset).Nonempty →
      sync_alexa_group_entities false true currentIds desiredIds "update_only" =
        (.updated, [currentIds.toFinset ∪ desiredIds.toFinset]) ∧
      currentIds.toFinset ⊆ currentIds.toFinset ∪ desiredIds.toFinset) ∧
    (desiredIds.toFinset \ currentIds.toFinset = ∅ →
      ∀ dryRun updateSucceeds,
        sync_alexa_group_entities dryRun updateSucceeds currentIds desiredIds
          "update_only" = (.skipped, [])) ∧
    (({"a", "b", "c"} : Finset String) ⊆
        (["a", "b"] : List String).toFinset ∪ (["b", "c"] : List String).toFinset ∧
      sync_alexa_group_entities false true ["a", "b"] ["b", "c"] "update_only" =
        (.updated, [(["a", "b"] : List String).toFinset ∪
          (["b", "c"] : List String).toFinset])) := by
  refine ⟨?_, ?_, by decide, by decide⟩
  · intro h
    have hne : desiredIds.toFinset \ currentIds.toFinset ≠ ∅ :=
      Finset.nonempty_iff_ne_empty.mp h
    exact ⟨by simp [sync_alexa_group_entities, hne], Finset.subset_union_left⟩
  · intro h dryRun updateSucceeds
    simp [sync_alexa_group_entities, h]

/-- Witness for C1 at the spec's concrete input current = [a, b], desired = [b, c]. -/
theorem update_only_mode_correct_witness :
    sync_alexa_group_entities false true ["a", "b"] ["b", "c"] "update_only" =
      (.updated, [(["a", "b"] : List String).toFinset ∪
        (["b", "c"] : List String).toFinset]) ∧
    (["a", "b"] : List String).toFinset ⊆
      (["a", "b"] : List String).toFinset ∪ (["b", "c"] : List String).toFinset :=
  (update_only_mode_correct ["a", "b"] ["b", "c"]).1 (by decide)

/-- C2: In full mode, when the current and desired membership sets differ the
membership sent for update is exactly the desired set and the outcome is updated;
when they are equal as sets the outcome is skipped with no mutating call issued, in
either mode (indeed for any mode string).  Since both memberships enter as sets,
reordering either input list never changes the result. -/
theorem full_mode_correct (currentIds desiredIds : List String) :
    (currentIds.toFinset ≠ desiredIds.toFinset →
      sync_alexa_group_entities false true currentIds desiredIds "full" =
        (.updated, [desiredIds.toFinset])) ∧
    (currentIds.toFinset = desiredIds.toFinset →
      ∀ dryRun updateSucceeds mode,
        sync_alexa_group_entities dryRun updateSucceeds currentIds desiredIds mode =
          (.skipped, [])) ∧
    (∀ currentIds' desiredIds' dryRun updateSucceeds mode,
      List.Perm currentIds' currentIds → List.Perm desiredIds' desiredIds →
        sync_alexa_group_entities dryRun updateSucceeds currentIds' desiredIds' mode =
          sync_alexa_group_entities dryRun updateSucceeds currentIds desiredIds mode) := by
  refine ⟨?_, ?_, ?_⟩
  · intro hne
    simp [sync_alexa_group_entities, hne]
  · intro h dryRun updateSucceeds mode
    simp [sync_alexa_group_entities, h]
  · intro currentIds' desiredIds' dryRun updateSucceeds mode h1 h2
    unfold sync_alexa_group_entities
    rw [List.toFinset_eq_of_perm currentIds' currentIds h1,
      List.toFinset_eq_of_perm desiredIds' desiredIds h2]

/-- Witness for C2 at the spec's concrete inputs: current = [a, b], desired = [c]
gives membership exactly the set containing c with outcome updated, and reordered
equal sets are skipped. -/
theorem full_mode_correct_witness :
    sync_alexa_group_entities false true ["a", "b"] ["c"] "full" =
      (.updated, [(["c"] : List String).toFinset]) ∧
    sync_alexa_group_entities false true ["b", "a"] ["a", "b"] "full" =
      (.skipped, []) :=
  ⟨(full_mode_correct ["a", "b"] ["c"]).1 (by decide),
    (full_mode_correct ["b", "a"] ["a", "b"]).2.1 (by decide) false true "full"⟩

/-- C7: With initial entity count 2 and stable_required 3, the polled count
sequence [2, 2, 3, 3, 3] makes the monitor report success exactly at the fifth
poll (not earlier), and any poll sequence that never rises above the initial
count, however long, leaves the monitor reporting the failure value false to the
caller (the timeout path) rather than succeeding. -/
theorem discovery_convergence_scenario :
    pollUntilStable (DiscoveryState.init 2 3) [2, 2, 3, 3, 3] = true ∧
    pollUntilStable (DiscoveryState.init 2 3) [2, 2, 3, 3] = false ∧
    ∀ counts : List Nat, (∀ c ∈ counts, c ≤ 2) →
      pollUntilStable (DiscoveryState.init 2 3) counts = false := by
  refine ⟨by decide, by decide, ?_⟩
  intro counts h
  exact pollUntilStable_no_increase _ counts rfl h

/-- Witness for C7: a five-poll sequence that never rises above the initial count
times out with the failure value false. -/
theorem discovery_convergence_scenario_witness :
    pollUntilStable (DiscoveryState.init 2 3) [2, 2, 2, 2, 2] = false :=
  discovery_convergence_scenario.2.2 [2, 2, 2, 2, 2] (by decide)

/-- Association-list model of a Python dict: an insert overwrites the value of
an existing key in place and otherwise appends, preserving first-insertion key
order exactly as Python dicts do. -/
def dictInsert {α : Type} (m : List (String × α)) (k : String) (v : α) :
    List (String × α) :=
  if m.any (fun p => p.1 == k) then m.map (fun p => if p.1 == k then (k, v) else p)
  else m ++ [(k, v)]

/-- Build a dict from a list of key/value pairs in order (dict comprehension). -/
def dictOf {α : Type} (l : List (String × α)) : List (String × α) :=
  l.foldl (fun m p => dictInsert m p.1 p.2) []

/-- Dict lookup (dict.get returning None when absent). -/
def dictGet? {α : Type} (m : List (String × α)) (k : String) : Option α :=
  (m.find? (fun p => p.1 == k)).map Prod.snd

/-- Dict lookup with default (dict.get(k, d)). -/
def dictGetD {α : Type} (m : List (String × α)) (k : String) (d : α) : α :=
  (dictGet? m k).getD d

/-- ASCII case table underlying the model of Python str.lower / str.upper /
str.title used by the source on ASCII identifiers. -/
def casePairs : List (Char × Char) :=
  [('A','a'),('B','b'),('C','c'),('D','d'),('E','e'),('F','f'),('G','g'),('H','h'),
   ('I','i'),('J','j'),('K','k'),('L','l'),('M','m'),('N','n'),('O','o'),('P','p'),
   ('Q','q'),('R','r'),('S','s'),('T','t'),('U','u'),('V','v'),('W','w'),('X','x'),
   ('Y','y'),('Z','z')]

/-- Lowercase one character (ASCII model of Python case folding). -/
def lowerChar (c : Char) : Char :=
  ((casePairs.find? (fun p => p.1 == c)).map Prod.snd).getD c

/-- Uppercase one character (ASCII model). -/
def upperChar (c : Char) : Char :=
  ((casePairs.find? (fun p => p.2 == c)).map Prod.fst).getD c

/-- Whether a character is cased (ASCII model), as used by str.title. -/
def isCasedAscii (c : Char) : Bool :=
  casePairs.any (fun p => p.1 == c || p.2 == c)

/-- Model of Python str.lower on a character list. -/
def pyLower (l : List Char) : List Char := l.map lowerChar

/-- Fuel-driven worker for the model of Python str.replace; structural in the
fuel so that concrete inputs evaluate inside the kernel.  The wrapper passes the
list length as fuel, which suffices because each step consumes at least one
character. -/
def pyReplaceFuel (pat repl : List Char) : Nat → List Char → List Char
  | 0, l => l
  | _ + 1, [] => []
  | fuel + 1, c :: rest =>
    if pat ≠ [] ∧ pat.isPrefixOf (c :: rest) then
      repl ++ pyReplaceFuel pat repl fuel ((c :: rest).drop pat.length)
    else
      c :: pyReplaceFuel pat repl fuel rest

/-- Model of Python str.replace on character lists: scan left to right replacing
non-overlapping occurrences of pat by repl.  All uses in this development pass a
nonempty pat; an empty pat acts as the identity here. -/
def pyReplace (pat repl l : List Char) : List Char :=
  pyReplaceFuel pat repl l.length l

/-- Helper: the replace worker ignores the exact fuel value once the fuel
dominates the list length. -/
theorem pyReplaceFuel_irrel (pat repl : List Char) :
    ∀ fuel fuel' l, l.length ≤ fuel → l.length ≤ fuel' →
      pyReplaceFuel pat repl fuel l = pyReplaceFuel pat repl fuel' l := by
  intro fuel
  induction fuel with
  | zero =>
    intro fuel' l hl hl'
    have hnil : l = [] := List.eq_nil_of_length_eq_zero (Nat.le_zero.mp hl)
    subst hnil
    cases fuel' <;> rfl
  | succ n ih =>
    intro fuel' l hl hl'
    cases l with
    | nil => cases fuel' <;> rfl
    | cons c rest =>
      cases fuel' with
      | zero => simp at hl'
      | succ m =>
        unfold pyReplaceFuel
        by_cases h : pat ≠ [] ∧ pat.isPrefixOf (c :: rest)
        · rw [if_pos h, if_pos h]
          have hp : 0 < pat.length := List.length_pos.mpr h.1
          congr 1
          apply ih
          · simp only [List.length_drop, List.length_cons]
            simp only [List.length_cons] at hl
            omega
          · simp only [List.length_drop, List.length_cons]
            simp only [List.length_cons] at hl'
            omega
        · rw [if_neg h, if_neg h]
          congr 1
          apply ih
          · simp only [List.length_cons] at hl
            omega
          · simp only [List.length_cons] at hl'
            omega

/-- Equation: replacing in the empty list gives the empty list. -/
theorem pyReplace_nil (pat repl : List Char) : pyReplace pat repl [] = [] := rfl

/-- Equation: when the nonempty pattern matches at the head, the replacement is
emitted and scanning resumes after the matched segment. -/
theorem pyReplace_cons_pos (pat repl : List Char) (c : Char) (rest : List Char)
    (h : pat ≠ [] ∧ pat.isPrefixOf (c :: rest)) :
    pyReplace pat repl (c :: rest) =
      repl ++ pyReplace pat repl ((c :: rest).drop pat.length) := by
  show pyReplaceFuel pat repl (rest.length + 1) (c :: rest) = _
  unfold pyReplaceFuel
  rw [if_pos h]
  congr 1
  apply pyReplaceFuel_irrel
  · have hp : 0 < pat.length := List.length_pos.mpr h.1
    simp only [List.length_drop, List.length_cons]
    omega
  · exact Nat.le_refl _

/-- Equation: when the pattern does not match at the head, the head character is
kept and scanning continues on the tail. -/
theorem pyReplace_cons_neg (pat repl : List Char) (c : Char) (rest : List Char)
    (h : ¬ (pat ≠ [] ∧ pat.isPrefixOf (c :: rest))) :
    pyReplace pat repl (c :: rest) = c :: pyReplace pat repl rest := by
  show pyReplaceFuel pat repl (rest.length + 1) (c :: rest) = _
  unfold pyReplaceFuel
  rw [if_neg h]
  rfl

/-- Fuel-driven worker for the model of Python str.split with a separator. -/
def pySplitFuel (pat : List Char) : Nat → List Char → List (List Char)
  | 0, l => [l]
  | _ + 1, [] => [[]]
  | fuel + 1, c :: rest =>
    if pat ≠ [] ∧ pat.isPrefixOf (c :: rest) then
      [] :: pySplitFuel pat fuel ((c :: rest).drop pat.length)
    else
      match pySplitFuel pat fuel rest with
      | [] => [[c]]
      | s :: ss => (c :: s) :: ss

/-- Model of Python str.split(sep): non-overlapping left-to-right splitting;
always yields at least one segment, so taking the last segment of the result
models Python's split(sep)[-1]. -/
def pySplit (pat l : List Char) : List (List Char) := pySplitFuel pat l.length l

/-- Characters stripped by Python str.strip with no argument (ASCII whitespace). -/
def isPySpace (c : Char) : Bool :=
  c == ' ' || c == '\t' || c == '\n' || c == '\r' || c == '\x0b' || c == '\x0c'

/-- Model of Python str.strip. -/
def pyStrip (l : List Char) : List Char :=
  ((l.dropWhile isPySpace).reverse.dropWhile isPySpace).reverse

/-- Worker for the model of Python str.title: the boolean records whether the
previous character was cased. -/
def pyTitleGo : List Char → Bool → List Char
  | [], _ => []
  | c :: rest, prevCased =>
    if isCasedAscii c then
      (if prevCased then lowerChar c else upperChar c) :: pyTitleGo rest true
    else
      c :: pyTitleGo rest false

/-- Model of Python str.title. -/
def pyTitle (l : List Char) : List Char := pyTitleGo l false

/-- Embedding of utils.normalise_area_name: strip, replace spaces with
underscores, lowercase. -/
def normalise_area_name (s : String) : String :=
  String.mk (pyLower (pyReplace [' '] ['_'] (pyStrip s.data)))

/-- Embedding of utils.convert_normalised_area_to_alexa_name: replace
underscores with spaces, strip, title-case. -/
def convert_normalised_area_to_alexa_name (s : String) : String :=
  String.mk (pyTitle (pyStrip (pyReplace ['_'] [' '] s.data)))

/-- Embedding of api._normalise_alexa_appliance_id: keep only what follows the
last skill marker (split on the marker and take the last piece; absent marker
leaves the id unchanged, as split then yields the whole id) and turn every hash
into a dot. -/
def normalise_alexa_appliance_id (s : String) : String :=
  let afterSkill := (pySplit "==_".data s.data).getLastD s.data
  String.mk (pyReplace ['#'] ['.'] afterSkill)

/-- Embedding of api._normalise_ha_entity_id: lowercase only. -/
def normalise_ha_entity_id (s : String) : String := String.mk (pyLower s.data)

/-- Alexa entity record, mirroring the constructor data of models.AlexaEntity. -/
structure AlexaEntity where
  id : String
  display_name : String
  description : String
  appliance_id : String
deriving DecidableEq, Repr

/-- Embedding of AlexaEntity._normalise_ha_entity_id(description): the
description with the " via Home Assistant" marker removed, lowercased. -/
def AlexaEntity.ha_entity_id (e : AlexaEntity) : String :=
  String.mk (pyLower (pyReplace " via Home Assistant".data [] e.description.data))

/-- Embedding of AlexaEntity._generate_delete_id(description): dots replaced by
the percent-encoded %23, then the " via Home Assistant" marker removed, then
lowercased. -/
def AlexaEntity.delete_id (e : AlexaEntity) : String :=
  String.mk (pyLower (pyReplace " via Home Assistant".data []
    (pyReplace ['.'] ['%', '2', '3'] e.description.data)))

/-- Dict built inside api.map_ha_entities_to_alexa_ids: normalised→original
appliance-id lookup over the endpoint entities having a nonempty appliance_id
(entries lacking one are excluded before the dict comprehension). -/
def normalised_alexa_map (endpoints : List AlexaEntity) : List (String × String) :=
  dictOf ((endpoints.filter (fun e => e.appliance_id != "")).map
    (fun e => (normalise_alexa_appliance_id e.appliance_id, e.appliance_id)))

/-- Embedding of api.map_ha_entities_to_alexa_ids: for each area keep, in
order, exactly the original appliance ids whose normalisation equals the
lowercased HA id; unmatched HA ids contribute nothing. -/
def map_ha_entities_to_alexa_ids (ha_areas : List (String × List String))
    (endpoints : List AlexaEntity) : List (String × List String) :=
  let normalised_alexa := normalised_alexa_map endpoints
  ha_areas.map (fun p =>
    (p.1, p.2.filterMap
      (fun ha_id => dictGet? normalised_alexa (normalise_ha_entity_id ha_id))))

/-- Embedding of AlexaEntity._check_deleted under its tenacity decorator
(retry on HTTPError, stop_after_attempt 3): fuel counts the remaining GET
attempts, gets indexes the GET transport calls made so far.  A 404 confirms the
deletion; any other status raises and is retried; exhausted fuel models the
RetryError escaping to the caller (false).  The dry-run branch simulates a 404
without a transport call. -/
def checkDeletedAttempts (dryRun : Bool) (getStatus : Nat → Nat) :
    Nat → Nat → Bool × Nat
  | 0, gets => (false, gets)
  | fuel + 1, gets =>
    if dryRun then (true, gets)
    else if getStatus gets = 404 then (true, gets + 1)
    else checkDeletedAttempts dryRun getStatus fuel (gets + 1)

/-- Embedding of AlexaEntity._delete_with_retry under its tenacity decorator
(retry on any exception, stop_after_attempt 3).  Each attempt: the do-not-delete
safety switch short-circuits to success with no call; otherwise one DELETE call
is made; a status of 400 or above raises (raise_for_status) and is retried;
exactly 200 runs the existence check, whose own retry exhaustion raises and is
retried here; any other sub-400 status raises HTTPError and is retried.  Result:
(success, DELETE calls made, GET calls made). -/
def entityDeleteAttempts (dryRun doNotDelete : Bool)
    (deleteStatus getStatus : Nat → Nat) : Nat → Nat → Nat → Bool × Nat × Nat
  | 0, dels, gets => (false, dels, gets)
  | fuel + 1, dels, gets =>
    if doNotDelete then (true, dels, gets)
    else
      let st := deleteStatus dels
      if 400 ≤ st then
        entityDeleteAttempts dryRun doNotDelete deleteStatus getStatus fuel
          (dels + 1) gets
      else if st = 200 then
        match checkDeletedAttempts dryRun getStatus 3 gets with
        | (true, gets') => (true, dels + 1, gets')
        | (false, gets') =>
          entityDeleteAttempts dryRun doNotDelete deleteStatus getStatus fuel
            (dels + 1) gets'
      else
        entityDeleteAttempts dryRun doNotDelete deleteStatus getStatus fuel
          (dels + 1) gets

/-- Embedding of AlexaEntity.delete: dry-run simulates the whole
delete-and-verify exchange and reports success with zero transport calls;
otherwise the retried deletion runs with a budget of 3 attempts. -/
def AlexaEntity.delete (dryRun doNotDelete : Bool)
    (deleteStatus getStatus : Nat → Nat) : Bool × Nat × Nat :=
  if dryRun then (true, 0, 0)
  else entityDeleteAttempts dryRun doNotDelete deleteStatus getStatus 3 0 0

/-- Embedding of AlexaGroup._delete_with_retry under its tenacity decorator
(retry on any exception, stop_after_attempt 3).  Each attempt makes one DELETE
call; 400 and above raises and is retried; otherwise the result is whether the
status is exactly 200.  The source performs no existence-check GET after a group
deletion, so the third component (GET calls) is 0 in every branch. -/
def AlexaGroup.deleteWithRetry (deleteStatus : Nat → Nat) :
    Nat → Nat → Bool × Nat × Nat
  | 0, dels => (false, dels, 0)
  | fuel + 1, dels =>
    let st := deleteStatus dels
    if 400 ≤ st then AlexaGroup.deleteWithRetry deleteStatus fuel (dels + 1)
    else (decide (st = 200), dels + 1, 0)

/-- Embedding of AlexaGroup.delete: dry-run reports success with zero calls;
otherwise the retried deletion runs with a budget of 3 attempts. -/
def AlexaGroup.delete (dryRun : Bool) (deleteStatus : Nat → Nat) :
    Bool × Nat × Nat :=
  if dryRun then (true, 0, 0) else AlexaGroup.deleteWithRetry deleteStatus 3 0

/-- Embedding of AlexaGroup.create under its tenacity decorator (retry on any
exception, stop_after_attempt 3): each attempt makes one POST; 400 and above
raises and is retried; otherwise success is whether the status is exactly 200. -/
def AlexaGroup.createAttempts (postStatus : Nat → Nat) : Nat → Nat → Bool × Nat
  | 0, posts => (false, posts)
  | fuel + 1, posts =>
    let st := postStatus posts
    if 400 ≤ st then AlexaGroup.createAttempts postStatus fuel (posts + 1)
    else (decide (st = 200), posts + 1)

/-- Embedding of AlexaGroup.create: the dry-run branch inside the retried body
returns success on the first attempt with zero calls. -/
def AlexaGroup.create (dryRun : Bool) (postStatus : Nat → Nat) : Bool × Nat :=
  if dryRun then (true, 0) else AlexaGroup.createAttempts postStatus 3 0

/-- Embedding of AlexaExpandedGroup.update: dry-run reports success with zero
calls; otherwise exactly one PUT call is made (the method carries no retry
decorator, despite its docstring); a status of 400 or above raises inside the
try block, is caught, and returns failure; otherwise success is whether the
status is exactly 200. -/
def AlexaExpandedGroup.update (dryRun : Bool) (putStatus : Nat → Nat) :
    Bool × Nat :=
  if dryRun then (true, 0)
  else
    let st := putStatus 0
    if 400 ≤ st then (false, 1)
    else (decide (st = 200), 1)

/-- Embedding of api.create_alexa_group_for_ha_area: dry-run reports success
with zero calls; otherwise a single POST is made (no retry) and success is
whether the status is exactly 200 (exceptions yield failure). -/
def create_alexa_group_for_ha_area (dryRun : Bool) (postStatus : Nat → Nat) :
    Bool × Nat :=
  if dryRun then (true, 0) else (decide (postStatus 0 = 200), 1)

/-- C4: Under the global dry-run flag every mutating operation (entity delete,
group create, group update, group delete, group creation for an area) reports
success while issuing zero transport calls, for every transport behaviour; and
the group-membership sync likewise sends no payload over the transport in
dry-run mode. -/
theorem dry_run_never_calls_transport :
    (∀ doNotDelete deleteStatus getStatus,
      AlexaEntity.delete true doNotDelete deleteStatus getStatus = (true, 0, 0)) ∧
    (∀ postStatus, AlexaGroup.create true postStatus = (true, 0)) ∧
    (∀ putStatus, AlexaExpandedGroup.update true putStatus = (true, 0)) ∧
    (∀ deleteStatus, AlexaGroup.delete true deleteStatus = (true, 0, 0)) ∧
    (∀ postStatus, create_alexa_group_for_ha_area true postStatus = (true, 0)) ∧
    (∀ updateSucceeds currentIds desiredIds mode,
      (sync_alexa_group_entities true updateSucceeds currentIds desiredIds
        mode).2 = []) := by
  refine ⟨fun _ _ _ => rfl, fun _ => rfl, fun _ => rfl, fun _ => rfl, fun _ => rfl, ?_⟩
  intro updateSucceeds currentIds desiredIds mode
  unfold sync_alexa_group_entities
  repeat' split
  all_goals try rfl
  all_goals simp_all
  all_goals split <;> rfl

/-- C5 evidence: with a transport that always answers HTTP 500, entity delete,
group create and group delete each make exactly 3 attempts and then surface a
structured failure, but AlexaExpandedGroup.update makes exactly one PUT attempt
and returns failure: the group-update path has no retry, contradicting both the
claim and the method's own docstring. -/
theorem retry_budget_behaviour :
    AlexaEntity.delete false false (fun _ => 500) (fun _ => 404) = (false, 3, 0) ∧
    AlexaGroup.create false (fun _ => 500) = (false, 3) ∧
    AlexaGroup.delete false (fun _ => 500) = (false, 3, 0) ∧
    AlexaExpandedGroup.update false (fun _ => 500) = (false, 1) :=
  ⟨rfl, rfl, rfl, rfl⟩

/-- Helper: the existence check never decreases the GET call index. -/
theorem checkDeletedAttempts_mono (getStatus : Nat → Nat) :
    ∀ fuel gets ok gets',
      checkDeletedAttempts false getStatus fuel gets = (ok, gets') →
      gets ≤ gets' := by
  intro fuel
  induction fuel with
  | zero =>
    intro gets ok gets' h
    cases h
    exact Nat.le_refl _
  | succ n ih =>
    intro gets ok gets' h
    unfold checkDeletedAttempts at h
    simp only [Bool.false_eq_true, if_false] at h
    by_cases h404 : getStatus gets = 404
    · rw [if_pos h404] at h
      cases h
      exact Nat.le_succ _
    · rw [if_neg h404] at h
      exact Nat.le_trans (Nat.le_succ _) (ih (gets + 1) ok gets' h)

/-- Helper: a successful existence check means some GET in the consumed range
returned 404. -/
theorem checkDeletedAttempts_success (getStatus : Nat → Nat) :
    ∀ fuel gets gets',
      checkDeletedAttempts false getStatus fuel gets = (true, gets') →
      ∃ i, gets ≤ i ∧ i < gets' ∧ getStatus i = 404 := by
  intro fuel
  induction fuel with
  | zero =>
    intro gets gets' h
    cases h
  | succ n ih =>
    intro gets gets' h
    unfold checkDeletedAttempts at h
    simp only [Bool.false_eq_true, if_false] at h
    by_cases h404 : getStatus gets = 404
    · rw [if_pos h404] at h
      cases h
      exact ⟨gets, Nat.le_refl _, Nat.lt_succ_self _, h404⟩
    · rw [if_neg h404] at h
      obtain ⟨i, hi1, hi2, hi3⟩ := ih (gets + 1) gets' h
      exact ⟨i, by omega, hi2, hi3⟩

/-- Helper: successful deletion with the safety switch off implies some
existence-check GET returned 404. -/
theorem entityDeleteAttempts_success (deleteStatus getStatus : Nat → Nat) :
    ∀ fuel dels gets dels' gets',
      entityDeleteAttempts false false deleteStatus getStatus fuel dels gets =
        (true, dels', gets') →
      ∃ i, gets ≤ i ∧ i < gets' ∧ getStatus i = 404 := by
  intro fuel
  induction fuel with
  | zero =>
    intro dels gets dels' gets' h
    cases h
  | succ n ih =>
    intro dels gets dels' gets' h
    unfold entityDeleteAttempts at h
    simp only [Bool.false_eq_true, if_false] at h
    by_cases h400 : 400 ≤ deleteStatus dels
    · rw [if_pos h400] at h
      exact ih (dels + 1) gets dels' gets' h
    · rw [if_neg h400] at h
      by_cases h200 : deleteStatus dels = 200
      · rw [if_pos h200] at h
        rcases hc : checkDeletedAttempts false getStatus 3 gets with ⟨cok, cg⟩
        rw [hc] at h
        cases cok with
        | true =>
          have h3 : cg = gets' := congrArg (fun p => p.2.2) h
          subst h3
          exact checkDeletedAttempts_success getStatus 3 gets cg hc
        | false =>
          obtain ⟨i, hi1, hi2, hi3⟩ := ih (dels + 1) cg dels' gets' h
          have hm := checkDeletedAttempts_mono getStatus 3 gets false cg hc
          exact ⟨i, by omega, hi2, hi3⟩
      · rw [if_neg h200] at h
        exact ih (dels + 1) gets dels' gets' h

/-- Helper: the group deletion path never makes an existence-check GET. -/
theorem groupDeleteWithRetry_no_gets (deleteStatus : Nat → Nat) :
    ∀ fuel dels, (AlexaGroup.deleteWithRetry deleteStatus fuel dels).2.2 = 0 := by
  intro fuel
  induction fuel with
  | zero => intro dels; rfl
  | succ n ih =>
    intro dels
    unfold AlexaGroup.deleteWithRetry
    by_cases h : 400 ≤ deleteStatus dels
    · rw [if_pos h]
      exact ih (dels + 1)
    · rw [if_neg h]

/-- C6 counterexample: for group deletion a 200 DELETE response alone already
yields success with zero existence-check GET calls, refuting the claim that a
group deletion is confirmed only after an existence check reports not-found. -/
theorem group_delete_skips_existence_check :
    AlexaGroup.delete false (fun _ => 200) = (true, 1, 0) := rfl

/-- C6 amended: entity deletion treats a 200 DELETE as provisional only: it
reports success (outside dry-run, with the safety switch off) only if some
existence-check GET returned 404, and a 200 DELETE whose existence check keeps
finding the entity fails after exhausting all retries; group deletion, by
contrast, returns success directly on a 200 DELETE and performs no
existence-check GET at all. -/
theorem deletion_confirmation_semantics :
    (∀ deleteStatus getStatus dels gets,
      AlexaEntity.delete false false deleteStatus getStatus =
        (true, dels, gets) →
      ∃ i, i < gets ∧ getStatus i = 404) ∧
    AlexaEntity.delete false false (fun _ => 200) (fun _ => 200) =
      (false, 3, 9) ∧
    (∀ deleteStatus, (AlexaGroup.delete false deleteStatus).2.2 = 0) := by
  refine ⟨?_, rfl, ?_⟩
  · intro deleteStatus getStatus dels gets h
    have h' : entityDeleteAttempts false false deleteStatus getStatus 3 0 0 =
        (true, dels, gets) := h
    obtain ⟨i, _, hi2, hi3⟩ :=
      entityDeleteAttempts_success deleteStatus getStatus 3 0 0 dels gets h'
    exact ⟨i, hi2, hi3⟩
  · intro deleteStatus
    show (AlexaGroup.deleteWithRetry deleteStatus 3 0).2.2 = 0
    exact groupDeleteWithRetry_no_gets deleteStatus 3 0

/-- Witness for C6 (amended): a 200 DELETE followed by a 404 existence check
succeeds after one GET, and that GET indeed returned 404. -/
theorem deletion_confirmation_semantics_witness :
    ∃ i, i < 1 ∧ (fun _ : Nat => 404) i = 404 :=
  deletion_confirmation_semantics.1 (fun _ => 200) (fun _ => 404) 1 1 rfl

/-- Helper: members of an insert come from the old dict or are the new pair. -/
theorem dictInsert_mem {α : Type} (m : List (String × α)) (k : String) (v : α)
    (p : String × α) (h : p ∈ dictInsert m k v) : p ∈ m ∨ p = (k, v) := by
  unfold dictInsert at h
  split at h
  · obtain ⟨q, hq, hEq⟩ := List.mem_map.mp h
    by_cases hqk : q.1 == k
    · rw [if_pos hqk] at hEq
      exact Or.inr hEq.symm
    · rw [if_neg hqk] at hEq
      exact Or.inl (hEq ▸ hq)
  · rcases List.mem_append.mp h with h1 | h2
    · exact Or.inl h1
    · exact Or.inr (by simpa using h2)

/-- Helper: every entry of the dict built from a pair list occurs in that list. -/
theorem dictOf_mem {α : Type} (l : List (String × α)) (p : String × α)
    (h : p ∈ dictOf l) : p ∈ l := by
  suffices H : ∀ (l : List (String × α)) (m : List (String × α)),
      p ∈ l.foldl (fun m q => dictInsert m q.1 q.2) m → p ∈ m ∨ p ∈ l by
    rcases H l [] h with h1 | h2
    · cases h1
    · exact h2
  intro l
  induction l with
  | nil =>
    intro m hm
    exact Or.inl hm
  | cons q rest ih =>
    intro m hm
    rcases ih (dictInsert m q.1 q.2) hm with h1 | h2
    · rcases dictInsert_mem m q.1 q.2 p h1 with h3 | h4
      · exact Or.inl h3
      · exact Or.inr (by simp [h4])
    · exact Or.inr (List.mem_cons_of_mem q h2)

/-- Helper: a successful dict lookup returns a value stored under that key. -/
theorem dictGet?_mem {α : Type} (m : List (String × α)) (k : String) (v : α)
    (h : dictGet? m k = some v) : (k, v) ∈ m := by
  unfold dictGet? at h
  cases hf : m.find? (fun p => p.1 == k) with
  | none =>
    rw [hf] at h
    cases h
  | some p =>
    rw [hf] at h
    have hp : p ∈ m := List.mem_of_find?_eq_some hf
    have hpk : (p.1 == k) = true := (List.find?_eq_some.mp hf).1
    have hk : p.1 = k := by simpa using hpk
    have hv : p.2 = v := by simpa using h
    have : (k, v) = p := by
      rw [← hk, ← hv]
    rw [this]
    exact hp

/-- Helper: any value the normalised appliance-id map yields is a nonempty
appliance id of some endpoint entity, and its normalisation is the lookup key. -/
theorem normalised_alexa_map_sound (endpoints : List AlexaEntity) (k v : String)
    (h : dictGet? (normalised_alexa_map endpoints) k = some v) :
    v ≠ "" ∧ (∃ e ∈ endpoints, e.appliance_id = v) ∧
      normalise_alexa_appliance_id v = k := by
  have hmem := dictOf_mem _ _ (dictGet?_mem _ _ _ h)
  obtain ⟨e, he, hEq⟩ := List.mem_map.mp hmem
  obtain ⟨he1, he2⟩ := List.mem_filter.mp he
  have hk : normalise_alexa_appliance_id e.appliance_id = k :=
    congrArg Prod.fst hEq
  have hv : e.appliance_id = v := congrArg Prod.snd hEq
  refine ⟨?_, ⟨e, he1, hv⟩, by rw [← hv, hk]⟩
  rw [← hv]
  simpa using he2

/-- C3: The entity matcher is a pure function of its inputs: it preserves the
area keys in order, and every appliance id placed in an area's result list is a
nonempty appliance id of some directory entry whose normalised form exactly
equals the lowercased form of one of that area's HA ids (so unmatched HA ids
contribute nothing and no partial or prefix match is possible).  Concretely, HA
id sensor.lamp does not match a directory entry whose appliance id normalises
to sensor.lamp2. -/
theorem map_ha_entities_exact_match (ha_areas : List (String × List String))
    (endpoints : List AlexaEntity) :
    ((map_ha_entities_to_alexa_ids ha_areas endpoints).map Prod.fst =
      ha_areas.map Prod.fst) ∧
    (∀ (ids : List String) (x : String),
      x ∈ ids.filterMap (fun ha_id =>
        dictGet? (normalised_alexa_map endpoints) (normalise_ha_entity_id ha_id)) →
      x ≠ "" ∧ (∃ e ∈ endpoints, e.appliance_id = x) ∧
        ∃ ha_id ∈ ids,
          normalise_alexa_appliance_id x = normalise_ha_entity_id ha_id) ∧
    (∀ area ids, (area, ids) ∈ ha_areas →
      (area, ids.filterMap (fun ha_id =>
        dictGet? (normalised_alexa_map endpoints) (normalise_ha_entity_id ha_id))) ∈
        map_ha_entities_to_alexa_ids ha_areas endpoints) ∧
    map_ha_entities_to_alexa_ids [("room", ["sensor.lamp"])]
      [⟨"id1", "Lamp", "desc", "SKILLX==_sensor#lamp2"⟩] = [("room", [])] := by
  refine ⟨?_, ?_, ?_, by decide⟩
  · unfold map_ha_entities_to_alexa_ids
    rw [List.map_map]
    rfl
  · intro ids x hx
    obtain ⟨ha_id, hha, hget⟩ := List.mem_filterMap.mp hx
    obtain ⟨h1, h2, h3⟩ := normalised_alexa_map_sound endpoints _ x hget
    exact ⟨h1, h2, ha_id, hha, h3⟩
  · intro area ids hmem
    exact List.mem_map_of_mem _ hmem

/-- Witness for C3: with one endpoint entity whose appliance id normalises to
light.lamp, the HA id light.Lamp (case differs) matches it exactly. -/
theorem map_ha_entities_exact_match_witness :
    "SK==_light#lamp" ≠ "" ∧
    (∃ e ∈ [(⟨"id1", "Lamp", "desc", "SK==_light#lamp"⟩ : AlexaEntity)],
      e.appliance_id = "SK==_light#lamp") ∧
    ∃ ha_id ∈ ["light.Lamp"],
      normalise_alexa_appliance_id "SK==_light#lamp" =
        normalise_ha_entity_id ha_id :=
  (map_ha_entities_exact_match [("room", ["light.Lamp"])]
    [⟨"id1", "Lamp", "desc", "SK==_light#lamp"⟩]).2.1 ["light.Lamp"]
    "SK==_light#lamp" (by decide)

/-- The dot-to-percent substitution as a per-character expansion, used to
relate single-character replace to flatMap. -/
def dotRepl (c : Char) : List Char := if c = '.' then ['%', '2', '3'] else [c]

/-- The description marker removed when deriving identifiers. -/
def viaPat : List Char := " via Home Assistant".data

/-- Helper: a positive replace step stated for any list with a matching head. -/
theorem pyReplace_pos (pat repl l : List Char)
    (h : pat ≠ [] ∧ pat.isPrefixOf l) (hl : l ≠ []) :
    pyReplace pat repl l = repl ++ pyReplace pat repl (l.drop pat.length) := by
  cases l with
  | nil => exact absurd rfl hl
  | cons c rest => exact pyReplace_cons_pos pat repl c rest h

/-- Helper: replacing dots by the percent encoding is the flatMap of the
per-character expansion. -/
theorem pyReplace_dot_eq_flatMap (l : List Char) :
    pyReplace ['.'] ['%', '2', '3'] l = l.flatMap dotRepl := by
  induction l with
  | nil => rfl
  | cons c rest ih =>
    by_cases hc : c = '.'
    · subst hc
      rw [pyReplace_cons_pos ['.'] ['%', '2', '3'] '.' rest
        ⟨by simp, by simp [List.isPrefixOf_cons₂]⟩]
      simp only [List.length_cons, List.length_nil, List.drop_succ_cons,
        List.drop_zero]
      rw [ih]
      rfl
    · have hneg : ¬ ((['.'] : List Char) ≠ [] ∧
          (['.'] : List Char).isPrefixOf (c :: rest)) := by
        rintro ⟨-, hpre⟩
        simp [List.isPrefixOf_cons₂] at hpre
        exact hc hpre.symm
      rw [pyReplace_cons_neg _ _ _ _ hneg, ih]
      simp [dotRepl, hc]

/-- Helper: lowercasing never produces a dot from a non-dot character. -/
theorem lowerChar_ne_dot (c : Char) (h : c ≠ '.') : lowerChar c ≠ '.' := by
  unfold lowerChar
  cases hf : casePairs.find? (fun p => p.1 == c) with
  | none => simpa using h
  | some p =>
    have hp : p ∈ casePairs := List.mem_of_find?_eq_some hf
    have hall : ∀ q ∈ casePairs, q.2 ≠ '.' := by decide
    simpa using hall p hp

/-- Helper: lowercasing commutes with the dot expansion. -/
theorem pyLower_flatMap_dotRepl (l : List Char) :
    pyLower (l.flatMap dotRepl) = (pyLower l).flatMap dotRepl := by
  unfold pyLower
  rw [List.map_flatMap, List.flatMap_map]
  have hpt : ∀ c : Char, (dotRepl c).map lowerChar = dotRepl (lowerChar c) := by
    intro c
    by_cases hc : c = '.'
    · subst hc
      rfl
    · have h1 : lowerChar c ≠ '.' := lowerChar_ne_dot c hc
      simp [dotRepl, hc, h1]
  simp only [hpt]

/-- Helper: a pattern free of dots and percents is a prefix of the dot-expanded
list only if it is a prefix of the original list. -/
theorem isPrefixOf_flatMap_dotRepl :
    ∀ (p l : List Char), (∀ ch ∈ p, ch ≠ '.' ∧ ch ≠ '%') →
      p.isPrefixOf (l.flatMap dotRepl) = true → p.isPrefixOf l = true := by
  intro p
  induction p with
  | nil =>
    intro l _ _
    simp
  | cons a p' ih =>
    intro l hp hpre
    cases l with
    | nil => simp at hpre
    | cons x l' =>
      by_cases hx : x = '.'
      · exfalso
        subst hx
        have hfm : ('.' :: l').flatMap dotRepl =
            '%' :: '2' :: '3' :: l'.flatMap dotRepl := by
          simp [dotRepl]
        rw [hfm] at hpre
        simp only [List.isPrefixOf_cons₂, Bool.and_eq_true, beq_iff_eq] at hpre
        exact (hp a (by simp)).2 hpre.1
      · have hfm : (x :: l').flatMap dotRepl = x :: l'.flatMap dotRepl := by
          simp [dotRepl, hx]
        rw [hfm] at hpre
        simp only [List.isPrefixOf_cons₂, Bool.and_eq_true, beq_iff_eq]
          at hpre ⊢
        exact ⟨hpre.1,
          ih l' (fun ch hch => hp ch (List.mem_cons_of_mem a hch)) hpre.2⟩

/-- Helper: the marker contains no dot, so it expands to itself. -/
theorem flatMap_viaPat : viaPat.flatMap dotRepl = viaPat := by decide

/-- Helper: removing a leading marker occurrence. -/
theorem pyReplace_via_strip (X : List Char) :
    pyReplace viaPat [] (viaPat ++ X) = pyReplace viaPat [] X := by
  have h : viaPat ≠ [] ∧ viaPat.isPrefixOf (viaPat ++ X) :=
    ⟨by decide, List.isPrefixOf_iff_prefix.mpr ⟨X, rfl⟩⟩
  rw [pyReplace_pos viaPat [] (viaPat ++ X) h (by simp [viaPat])]
  rw [List.drop_left]
  rfl

/-- Helper: the marker starts with a space, so it is not a prefix of any list
starting with another character. -/
theorem viaPat_not_prefix_cons (x : Char) (hx : x ≠ ' ') (X : List Char) :
    ¬ (viaPat ≠ [] ∧ viaPat.isPrefixOf (x :: X)) := by
  rintro ⟨-, hpre⟩
  have hv : viaPat = ' ' :: "via Home Assistant".data := rfl
  rw [hv] at hpre
  simp only [List.isPrefixOf_cons₂, Bool.and_eq_true, beq_iff_eq] at hpre
  exact hx hpre.1.symm

/-- Helper: marker removal commutes with the dot expansion (fuel version for
the induction on the list length). -/
theorem removeVia_flatMap_comm_aux :
    ∀ (n : Nat) (l : List Char), l.length ≤ n →
      pyReplace viaPat [] (l.flatMap dotRepl) =
        (pyReplace viaPat [] l).flatMap dotRepl := by
  intro n
  induction n with
  | zero =>
    intro l hl
    have hnil : l = [] := List.eq_nil_of_length_eq_zero (Nat.le_zero.mp hl)
    subst hnil
    rfl
  | succ m ih =>
    intro l hl
    cases l with
    | nil => rfl
    | cons c rest =>
      by_cases hpre : viaPat.isPrefixOf (c :: rest) = true
      · obtain ⟨t, ht⟩ := List.isPrefixOf_iff_prefix.mp hpre
        have hfm : (c :: rest).flatMap dotRepl = viaPat ++ t.flatMap dotRepl := by
          rw [← ht, List.flatMap_append, flatMap_viaPat]
        have hlen : viaPat.length + t.length = rest.length + 1 := by
          have := congrArg List.length ht
          simpa using this
        have hvl : 0 < viaPat.length := by decide
        have htm : t.length ≤ m := by
          simp only [List.length_cons] at hl
          omega
        rw [hfm, pyReplace_via_strip (t.flatMap dotRepl)]
        have hR : pyReplace viaPat [] (c :: rest) = pyReplace viaPat [] t := by
          rw [← ht, pyReplace_via_strip]
        rw [hR]
        exact ih t htm
      · have hrm : rest.length ≤ m := by
          simp only [List.length_cons] at hl
          omega
        have hnegR : ¬ (viaPat ≠ [] ∧ viaPat.isPrefixOf (c :: rest)) := by
          rintro ⟨-, hp2⟩
          exact hpre hp2
        by_cases hc : c = '.'
        · subst hc
          have hfm : ('.' :: rest).flatMap dotRepl =
              '%' :: '2' :: '3' :: rest.flatMap dotRepl := by
            simp [dotRepl]
          rw [hfm]
          rw [pyReplace_cons_neg _ _ _ _ (viaPat_not_prefix_cons '%' (by decide) _)]
          rw [pyReplace_cons_neg _ _ _ _ (viaPat_not_prefix_cons '2' (by decide) _)]
          rw [pyReplace_cons_neg _ _ _ _ (viaPat_not_prefix_cons '3' (by decide) _)]
          rw [ih rest hrm]
          rw [pyReplace_cons_neg _ _ _ _ hnegR]
          simp [dotRepl]
        · have hfm : (c :: rest).flatMap dotRepl = c :: rest.flatMap dotRepl := by
            simp [dotRepl, hc]
          have hnegL : ¬ (viaPat ≠ [] ∧ viaPat.isPrefixOf (c :: rest.flatMap dotRepl)) := by
            rintro ⟨-, hp2⟩
            have : viaPat.isPrefixOf ((c :: rest).flatMap dotRepl) = true := by
              rw [hfm]
              exact hp2
            exact hpre (isPrefixOf_flatMap_dotRepl viaPat (c :: rest)
              (by decide) this)
          rw [hfm]
          rw [pyReplace_cons_neg _ _ _ _ hnegL]
          rw [ih rest hrm]
          rw [pyReplace_cons_neg _ _ _ _ hnegR]
          simp [dotRepl, hc]

/-- C10: For every AlexaEntity, the derived delete_id equals the derived
ha_entity_id with every dot replaced by the percent-encoded %23: both fields
are the description with the marker removed and lowercased, and delete_id only
additionally percent-encodes the dots, so the two identifiers never disagree on
anything but that substitution. -/
theorem delete_id_matches_ha_entity_id (e : AlexaEntity) :
    e.delete_id =
      String.mk (pyReplace ['.'] ['%', '2', '3'] e.ha_entity_id.data) := by
  show String.mk (pyLower (pyReplace " via Home Assistant".data []
      (pyReplace ['.'] ['%', '2', '3'] e.description.data))) = _
  have hvia : (" via Home Assistant".data) = viaPat := rfl
  congr 1
  rw [hvia]
  rw [pyReplace_dot_eq_flatMap]
  rw [removeVia_flatMap_comm_aux e.description.data.length e.description.data
    (Nat.le_refl _)]
  rw [pyLower_flatMap_dotRepl]
  show _ = pyReplace ['.'] ['%', '2', '3']
    (pyLower (pyReplace viaPat [] e.description.data))
  rw [pyReplace_dot_eq_flatMap]

/-- Alexa group record as the orchestrator consumes it: the dict keys name, id
and applianceIds read by sync_ha_alexa_groups and sync_alexa_group_entities. -/
structure GroupData where
  name : String
  id : String
  applianceIds : List String
deriving DecidableEq, Repr

/-- One summary entry produced while the orchestrator runs; the summary lists
are the entry stream partitioned in order. -/
inductive Entry where
  | createdE (name : String)
  | updatedE (name : String)
  | skippedE (name : String)
  | errorE (name msg : String)
deriving DecidableEq, Repr

/-- The orchestrator's aggregate result (the created/updated/skipped/errors
lists of the source's results dict). -/
structure Summary where
  created : List String
  updated : List String
  skipped : List String
  errors : List (String × String)
deriving DecidableEq, Repr

/-- Partition an entry stream into the four summary lists, preserving order. -/
def summarize : List Entry → Summary
  | [] => ⟨[], [], [], []⟩
  | .createdE n :: rest =>
    let s := summarize rest
    { s with created := n :: s.created }
  | .updatedE n :: rest =>
    let s := summarize rest
    { s with updated := n :: s.updated }
  | .skippedE n :: rest =>
    let s := summarize rest
    { s with skipped := n :: s.skipped }
  | .errorE n m :: rest =>
    let s := summarize rest
    { s with errors := (n, m) :: s.errors }

/-- Embedding of api.find_missing_ha_groups: the HA areas (keys, in order)
whose normalised name matches no normalised Alexa group name. -/
def find_missing_ha_groups (ha_areas : List (String × List String))
    (alexa_groups : List GroupData) : List String :=
  let alexa_group_names_normalised :=
    alexa_groups.map (fun g => normalise_area_name g.name)
  (ha_areas.map Prod.fst).filter
    (fun area => decide (normalise_area_name area ∉ alexa_group_names_normalised))

/-- The areas the creation phase iterates, in order: the normalised→original
dict over the input areas, the ignore-list filter on normalised names, then the
missing-group filter (the sync_groups branch of api.sync_ha_alexa_groups up to
its creation loop). -/
def creationCandidates (ignored : List String)
    (ha_areas : List (String × List String)) (alexa_groups : List GroupData) :
    List String :=
  let normalised_to_original :=
    dictOf (ha_areas.map (fun p => (normalise_area_name p.1, p.1)))
  let filtered_normalised :=
    (normalised_to_original.map Prod.fst).filter (fun n => decide (n ∉ ignored))
  let filtered_originals :=
    filtered_normalised.filterMap (fun n => dictGet? normalised_to_original n)
  let filtered_ha_areas :=
    filtered_originals.map (fun o => (o, dictGetD ha_areas o []))
  find_missing_ha_groups filtered_ha_areas alexa_groups

/-- Creation phase of the orchestrator: one entry per missing group, created in
dry-run or when the transport reports success, errored otherwise.  The created
group's payload (the cross-referenced appliance ids) only feeds the POST body,
abstracted into createSucceeds, which receives the pretty group name. -/
def syncGroupsPhase (dryRun : Bool) (createSucceeds : String → Bool)
    (ignored : List String) (ha_areas : List (String × List String))
    (alexa_groups : List GroupData) : List Entry :=
  (creationCandidates ignored ha_areas alexa_groups).map (fun area_name =>
    let pretty := convert_normalised_area_to_alexa_name
      (normalise_area_name area_name)
    if dryRun then .createdE pretty
    else if createSucceeds pretty then .createdE pretty
    else .errorE pretty "Failed to create group")

/-- Entity-sync phase of the orchestrator: every input area is visited (the
ignore-list is not consulted); an area whose normalised name matches an
existing group is synced, yielding exactly one entry; areas with no matching
group yield nothing.  updateSucceeds abstracts the PUT, keyed by group id. -/
def syncEntitiesPhase (dryRun : Bool) (updateSucceeds : String → Bool)
    (ha_areas ha_to_alexa : List (String × List String))
    (alexa_groups : List GroupData) (mode : String) : List Entry :=
  let alexa_group_by_normalised_name :=
    dictOf (alexa_groups.map (fun g => (normalise_area_name g.name, g)))
  ha_areas.flatMap (fun p =>
    let norm_area_name := normalise_area_name p.1
    let pretty := convert_normalised_area_to_alexa_name norm_area_name
    match dictGet? alexa_group_by_normalised_name norm_area_name with
    | none => []
    | some g =>
      match (sync_alexa_group_entities dryRun (updateSucceeds g.id)
          g.applianceIds (dictGetD ha_to_alexa p.1 []) mode).1 with
      | .updated => [.updatedE pretty]
      | .skipped => [.skippedE pretty]
      | .error => [.errorE pretty "Failed to sync entities"])

/-- Embedding of api.sync_ha_alexa_groups: the creation phase (when
sync_groups) followed by the entity-sync phase (when sync_entities), with all
entries aggregated into the summary in processing order. -/
def sync_ha_alexa_groups (dryRun : Bool)
    (createSucceeds updateSucceeds : String → Bool) (ignored : List String)
    (ha_areas : List (String × List String)) (alexa_groups : List GroupData)
    (ha_to_alexa : List (String × List String)) (mode : String)
    (sync_groups sync_entities : Bool) : Summary :=
  summarize
    ((if sync_groups then
        syncGroupsPhase dryRun createSucceeds ignored ha_areas alexa_groups
      else []) ++
     (if sync_entities then
        syncEntitiesPhase dryRun updateSucceeds ha_areas ha_to_alexa
          alexa_groups mode
      else []))

/-- The name an entry accounts to. -/
def entryName : Entry → String
  | .createdE n => n
  | .updatedE n => n
  | .skippedE n => n
  | .errorE n _ => n

/-- How many times a name occurs across all four summary collections. -/
def Summary.countName (s : Summary) (n : String) : Nat :=
  s.created.count n + s.updated.count n + s.skipped.count n +
    (s.errors.map Prod.fst).count n

/-- Helper: summarize distributes over concatenation, componentwise. -/
theorem summarize_append (es fs : List Entry) :
    summarize (es ++ fs) =
      ⟨(summarize es).created ++ (summarize fs).created,
       (summarize es).updated ++ (summarize fs).updated,
       (summarize es).skipped ++ (summarize fs).skipped,
       (summarize es).errors ++ (summarize fs).errors⟩ := by
  induction es with
  | nil => rfl
  | cons e rest ih =>
    cases e with
    | createdE n => simp [summarize, ih]
    | updatedE n => simp [summarize, ih]
    | skippedE n => simp [summarize, ih]
    | errorE n m => simp [summarize, ih]

/-- Helper: the total occurrence count of a name across the four summary lists
is its count in the entry-name stream. -/
theorem summarize_countName (es : List Entry) (n : String) :
    (summarize es).countName n = (es.map entryName).count n := by
  induction es with
  | nil => rfl
  | cons e rest ih =>
    cases e with
    | createdE m =>
      simp only [summarize, Summary.countName, List.map_cons, entryName,
        List.count_cons] at *
      omega
    | updatedE m =>
      simp only [summarize, Summary.countName, List.map_cons, entryName,
        List.count_cons] at *
      omega
    | skippedE m =>
      simp only [summarize, Summary.countName, List.map_cons, entryName,
        List.count_cons] at *
      omega
    | errorE m msg =>
      simp only [summarize, Summary.countName, List.map_cons, entryName,
        List.count_cons] at *
      omega

/-- Helper: inserting into the dict overwrites in place or appends the key. -/
theorem dictInsert_keys {α : Type} (m : List (String × α)) (k' : String) (v : α) :
    (dictInsert m k' v).map Prod.fst =
      if m.any (fun p => p.1 == k') then m.map Prod.fst
      else m.map Prod.fst ++ [k'] := by
  unfold dictInsert
  split
  · rename_i hany
    rw [List.map_map]
    apply List.map_congr_left
    intro p _
    by_cases hpk : (p.1 == k') = true
    · simp only [Function.comp_apply, if_pos hpk]
      exact (beq_iff_eq.mp hpk).symm
    · simp only [Function.comp_apply, if_neg hpk]
  · rename_i hany
    simp

/-- Helper: the keys of the built dict are exactly the keys of the input list
(up to duplication). -/
theorem dictOf_keys_mem {α : Type} (l : List (String × α)) (k : String) :
    k ∈ (dictOf l).map Prod.fst ↔ k ∈ l.map Prod.fst := by
  suffices H : ∀ (l m : List (String × α)),
      (k ∈ (l.foldl (fun acc q => dictInsert acc q.1 q.2) m).map Prod.fst ↔
        (k ∈ m.map Prod.fst ∨ k ∈ l.map Prod.fst)) by
    simpa using H l []
  intro l
  induction l with
  | nil =>
    intro m
    simp [dictOf]
  | cons q rest ih =>
    intro m
    rw [List.foldl_cons, ih]
    constructor
    · rintro (h | h)
      · rw [dictInsert_keys] at h
        split at h
        · exact Or.inl h
        · rcases List.mem_append.mp h with h1 | h2
          · exact Or.inl h1
          · right
            simp at h2
            simp [h2]
      · right
        simp [h]
    · rintro (h | h)
      · left
        rw [dictInsert_keys]
        split
        · exact h
        · exact List.mem_append.mpr (Or.inl h)
      · rcases List.mem_cons.mp (by simpa using h : k ∈ q.1 :: rest.map Prod.fst)
          with h1 | h2
        · left
          rw [dictInsert_keys]
          split
          · rename_i hany
            rcases List.any_eq_true.mp hany with ⟨p, hp, hpk⟩
            have : p.1 = q.1 := beq_iff_eq.mp hpk
            rw [h1, ← this]
            exact List.mem_map_of_mem Prod.fst hp
          · exact List.mem_append.mpr (Or.inr (by simp [h1]))
        · exact Or.inr h2

/-- Helper: building a dict from pairs with pairwise distinct keys keeps the
list unchanged. -/
theorem dictOf_eq_self {α : Type} (l : List (String × α))
    (h : (l.map Prod.fst).Nodup) : dictOf l = l := by
  suffices H : ∀ (l m : List (String × α)),
      (l.map Prod.fst).Nodup →
      (∀ k ∈ m.map Prod.fst, k ∉ l.map Prod.fst) →
      l.foldl (fun acc q => dictInsert acc q.1 q.2) m = m ++ l by
    simpa using H l [] h (by simp)
  intro l
  induction l with
  | nil =>
    intro m _ _
    simp
  | cons q rest ih =>
    intro m hnodup hdisj
    rw [List.foldl_cons]
    have hnotany : ¬ (m.any fun p => p.1 == q.1) = true := by
      intro hany
      rcases List.any_eq_true.mp hany with ⟨p, hp, hbeq⟩
      have h1 : q.1 ∈ m.map Prod.fst := by
        rw [← beq_iff_eq.mp hbeq]
        exact List.mem_map_of_mem Prod.fst hp
      exact hdisj q.1 h1 (by simp)
    have hins : dictInsert m q.1 q.2 = m ++ [q] := by
      unfold dictInsert
      rw [if_neg hnotany]
    rw [hins, ih (m ++ [q]) ?hn ?hd]
    · simp
    case hn =>
      simp only [List.map_cons, List.nodup_cons] at hnodup
      exact hnodup.2
    case hd =>
      intro k hk hkrest
      simp only [List.map_append, List.map_cons, List.map_nil,
        List.mem_append, List.mem_cons, List.not_mem_nil, or_false] at hk
      rcases hk with hk | hk
      · exact hdisj k hk (by simp [hkrest])
      · simp only [List.map_cons, List.nodup_cons] at hnodup
        exact hnodup.1 (hk ▸ hkrest)

/-- Helper: lookups skip a head pair with a different key. -/
theorem dictGet?_cons_ne {α : Type} (p : String × α) (m : List (String × α))
    (k : String) (h : ¬ p.1 = k) : dictGet? (p :: m) k = dictGet? m k := by
  unfold dictGet?
  rw [List.find?_cons_of_neg]
  simpa using h

/-- Helper: a lookup hits a head pair with the matching key. -/
theorem dictGet?_cons_eq {α : Type} (p : String × α) (m : List (String × α))
    (k : String) (h : p.1 = k) : dictGet? (p :: m) k = some p.2 := by
  unfold dictGet?
  rw [List.find?_cons_of_pos]
  · rfl
  · simpa using h

/-- Helper: a dict lookup yields a value exactly when the key occurs. -/
theorem dictGet?_isSome_iff {α : Type} (m : List (String × α)) (k : String) :
    (dictGet? m k).isSome ↔ k ∈ m.map Prod.fst := by
  induction m with
  | nil => simp [dictGet?]
  | cons p rest ih =>
    by_cases hp : p.1 = k
    · rw [dictGet?_cons_eq p rest k hp]
      simp [hp]
    · rw [dictGet?_cons_ne p rest k hp, ih]
      simp only [List.map_cons, List.mem_cons]
      constructor
      · exact Or.inr
      · rintro (h1 | h1)
        · exact absurd h1.symm hp
        · exact h1

/-- Helper: with pairwise distinct normalised names, filtering the dict keys
and looking each key back up returns exactly the original areas passing the
filter, in order. -/
theorem keysFilterLookup (q : String → Bool) :
    ∀ (ha : List (String × List String)),
      (ha.map (fun p => normalise_area_name p.1)).Nodup →
      (((ha.map (fun p => (normalise_area_name p.1, p.1))).map Prod.fst).filter
          q).filterMap
        (fun n =>
          dictGet? (ha.map (fun p => (normalise_area_name p.1, p.1))) n) =
      (ha.map Prod.fst).filter (fun a => q (normalise_area_name a)) := by
  intro ha
  induction ha with
  | nil =>
    intro _
    rfl
  | cons p rest ih =>
    intro hN
    simp only [List.map_cons, List.nodup_cons] at hN
    have hswitch :
        (((rest.map (fun p => (normalise_area_name p.1, p.1))).map
            Prod.fst).filter q).filterMap
          (fun n => dictGet? ((normalise_area_name p.1, p.1) ::
            rest.map (fun p => (normalise_area_name p.1, p.1))) n) =
        (((rest.map (fun p => (normalise_area_name p.1, p.1))).map
            Prod.fst).filter q).filterMap
          (fun n =>
            dictGet? (rest.map (fun p => (normalise_area_name p.1, p.1))) n) := by
      apply List.filterMap_congr
      intro n hn
      have hn2 : n ∈ (rest.map (fun p => (normalise_area_name p.1, p.1))).map
          Prod.fst := List.mem_of_mem_filter hn
      have hn3 : n ∈ rest.map (fun p => normalise_area_name p.1) := by
        rw [List.map_map] at hn2
        simpa using hn2
      have hne : ¬ (normalise_area_name p.1 = n) := by
        intro hEq
        exact hN.1 (hEq ▸ hn3)
      exact dictGet?_cons_ne _ _ _ hne
    simp only [List.map_cons, List.filter_cons]
    by_cases hq : q (normalise_area_name p.1) = true
    · rw [if_pos hq, List.filterMap_cons]
      rw [dictGet?_cons_eq _ _ _ rfl]
      rw [if_pos hq]
      simp only []
      rw [hswitch, ih hN.2]
    · rw [if_neg hq, if_neg hq]
      rw [hswitch, ih hN.2]

/-- Helper: with pairwise distinct normalised area names the creation
candidates are exactly the input areas, in order, that have no matching
normalised group name and are not ignored. -/
theorem creationCandidates_char (ignored : List String)
    (ha_areas : List (String × List String)) (alexa_groups : List GroupData)
    (hN : (ha_areas.map (fun p => normalise_area_name p.1)).Nodup) :
    creationCandidates ignored ha_areas alexa_groups =
      (ha_areas.map Prod.fst).filter (fun a =>
        decide (normalise_area_name a ∉
          alexa_groups.map (fun g => normalise_area_name g.name)) &&
        decide (normalise_area_name a ∉ ignored)) := by
  unfold creationCandidates find_missing_ha_groups
  dsimp only []
  have hkeys : (dictOf (ha_areas.map (fun p => (normalise_area_name p.1, p.1)))) =
      ha_areas.map (fun p => (normalise_area_name p.1, p.1)) := by
    apply dictOf_eq_self
    rw [List.map_map]
    exact hN
  rw [hkeys]
  rw [List.map_map]
  simp only [Function.comp_def]
  rw [keysFilterLookup _ ha_areas hN]
  simp only [List.map_id_fun', id]
  rw [List.filter_filter]

/-- Helper: a stream of only created/error entries contributes nothing to the
updated and skipped lists. -/
theorem summarize_no_updated_of (es : List Entry)
    (h : ∀ e ∈ es, (∃ n, e = .createdE n) ∨ ∃ n m, e = .errorE n m) :
    (summarize es).updated = [] ∧ (summarize es).skipped = [] := by
  induction es with
  | nil => exact ⟨rfl, rfl⟩
  | cons e rest ih =>
    have he := h e (by simp)
    have ihr := ih (fun x hx => h x (by simp [hx]))
    rcases he with ⟨n, rfl⟩ | ⟨n, m, rfl⟩
    · simpa [summarize] using ihr
    · simpa [summarize] using ihr

/-- Helper: the creation phase emits only created or error entries. -/
theorem syncGroupsPhase_entries (dryRun : Bool) (createSucceeds : String → Bool)
    (ignored : List String) (ha_areas : List (String × List String))
    (alexa_groups : List GroupData) :
    ∀ e ∈ syncGroupsPhase dryRun createSucceeds ignored ha_areas alexa_groups,
      (∃ n, e = .createdE n) ∨ ∃ n m, e = .errorE n m := by
  intro e he
  unfold syncGroupsPhase at he
  obtain ⟨a, -, rfl⟩ := List.mem_map.mp he
  dsimp only []
  by_cases hd : dryRun = true
  · rw [if_pos hd]
    exact Or.inl ⟨_, rfl⟩
  · rw [if_neg hd]
    by_cases hc : createSucceeds
        (convert_normalised_area_to_alexa_name (normalise_area_name a)) = true
    · rw [if_pos hc]
      exact Or.inl ⟨_, rfl⟩
    · rw [if_neg hc]
      exact Or.inr ⟨_, _, rfl⟩

/-- Helper: the creation phase emits exactly one entry per candidate, named by
the candidate's pretty name, whatever the transport reports. -/
theorem syncGroupsPhase_names (dryRun : Bool) (createSucceeds : String → Bool)
    (ignored : List String) (ha_areas : List (String × List String))
    (alexa_groups : List GroupData) :
    (syncGroupsPhase dryRun createSucceeds ignored ha_areas alexa_groups).map
        entryName =
      (creationCandidates ignored ha_areas alexa_groups).map (fun a =>
        convert_normalised_area_to_alexa_name (normalise_area_name a)) := by
  unfold syncGroupsPhase
  rw [List.map_map]
  apply List.map_congr_left
  intro a _
  dsimp only [Function.comp_apply]
  by_cases hd : dryRun = true
  · rw [if_pos hd]
    rfl
  · rw [if_neg hd]
    by_cases hc : createSucceeds
        (convert_normalised_area_to_alexa_name (normalise_area_name a)) = true
    · rw [if_pos hc]
      rfl
    · rw [if_neg hc]
      rfl

/-- Helper: the entity-sync phase emits exactly one entry, named by the area's
pretty name, for each area whose normalised name resolves to a group, and no
entry for the others, independently of the transport, the mode and dry-run. -/
theorem syncEntitiesPhase_names (dryRun : Bool) (updateSucceeds : String → Bool)
    (ha_areas ha_to_alexa : List (String × List String))
    (alexa_groups : List GroupData) (mode : String) :
    (syncEntitiesPhase dryRun updateSucceeds ha_areas ha_to_alexa alexa_groups
        mode).map entryName =
      (ha_areas.filter (fun p =>
        (dictGet? (dictOf (alexa_groups.map (fun g =>
            (normalise_area_name g.name, g))))
          (normalise_area_name p.1)).isSome)).map
        (fun p => convert_normalised_area_to_alexa_name
          (normalise_area_name p.1)) := by
  unfold syncEntitiesPhase
  dsimp only []
  induction ha_areas with
  | nil => rfl
  | cons p rest ih =>
    rw [List.flatMap_cons, List.map_append, List.filter_cons]
    cases hl : dictGet? (dictOf (alexa_groups.map (fun g =>
        (normalise_area_name g.name, g)))) (normalise_area_name p.1) with
    | none =>
      simp only [Option.isSome_none, Bool.false_eq_true, if_false]
      simpa using ih
    | some g =>
      simp only [Option.isSome_some, if_true]
      rcases houtcome : (sync_alexa_group_entities dryRun (updateSucceeds g.id)
          g.applianceIds (dictGetD ha_to_alexa p.1 []) mode).1 with _ | _ | _ <;>
        simp [houtcome, entryName, ih]

/-- C8: The pre-normalised ignore-list only suppresses group creation: an area
whose normalised name is ignored never becomes a creation candidate, while the
entity-sync phase never consults the ignore-list: in any run with entity sync
enabled the updated and skipped collections are identical for any two
ignore-lists, and with creation disabled the entire summary is independent of
the ignore-list, so membership sync into existing groups proceeds for ignored
areas exactly as for the others. -/
theorem ignore_list_only_suppresses_creation (ignored ignored' : List String)
    (ha_areas ha_to_alexa : List (String × List String))
    (alexa_groups : List GroupData) :
    (∀ area, normalise_area_name area ∈ ignored →
      area ∉ creationCandidates ignored ha_areas alexa_groups) ∧
    (∀ dryRun createSucceeds updateSucceeds mode sync_groups,
      (sync_ha_alexa_groups dryRun createSucceeds updateSucceeds ignored
          ha_areas alexa_groups ha_to_alexa mode sync_groups true).updated =
        (sync_ha_alexa_groups dryRun createSucceeds updateSucceeds ignored'
          ha_areas alexa_groups ha_to_alexa mode sync_groups true).updated ∧
      (sync_ha_alexa_groups dryRun createSucceeds updateSucceeds ignored
          ha_areas alexa_groups ha_to_alexa mode sync_groups true).skipped =
        (sync_ha_alexa_groups dryRun createSucceeds updateSucceeds ignored'
          ha_areas alexa_groups ha_to_alexa mode sync_groups true).skipped) ∧
    (∀ dryRun createSucceeds updateSucceeds mode,
      sync_ha_alexa_groups dryRun createSucceeds updateSucceeds ignored
          ha_areas alexa_groups ha_to_alexa mode false true =
        sync_ha_alexa_groups dryRun createSucceeds updateSucceeds ignored'
          ha_areas alexa_groups ha_to_alexa mode false true) := by
  refine ⟨?_, ?_, ?_⟩
  · intro area hmem hcand
    unfold creationCandidates find_missing_ha_groups at hcand
    dsimp only [] at hcand
    rw [List.map_map] at hcand
    have h2 := List.mem_of_mem_filter hcand
    simp only [Function.comp_def, List.map_id_fun', id] at h2
    obtain ⟨n, hn, hget⟩ := List.mem_filterMap.mp h2
    have hn2 : n ∉ ignored := of_decide_eq_true (List.mem_filter.mp hn).2
    have hpair := dictOf_mem _ _ (dictGet?_mem _ _ _ hget)
    obtain ⟨q, -, hEq⟩ := List.mem_map.mp hpair
    have hfst := congrArg Prod.fst hEq
    have hsnd := congrArg Prod.snd hEq
    simp only [] at hfst hsnd
    have hn_eq : n = normalise_area_name area := by
      rw [← hfst, hsnd]
    exact hn2 (hn_eq ▸ hmem)
  · intro dryRun createSucceeds updateSucceeds mode sync_groups
    cases sync_groups with
    | false => exact ⟨rfl, rfl⟩
    | true =>
      unfold sync_ha_alexa_groups
      simp only [if_true]
      have h1 := summarize_no_updated_of _
        (syncGroupsPhase_entries dryRun createSucceeds ignored ha_areas
          alexa_groups)
      have h1' := summarize_no_updated_of _
        (syncGroupsPhase_entries dryRun createSucceeds ignored' ha_areas
          alexa_groups)
      constructor
      · simp only [summarize_append]
        rw [h1.1, h1'.1]
      · simp only [summarize_append]
        rw [h1.2, h1'.2]
  · intro dryRun createSucceeds updateSucceeds mode
    rfl

/-- Witness for C8: a concrete ignored area is excluded from creation
consideration. -/
theorem ignore_list_only_suppresses_creation_witness :
    "attic" ∉ creationCandidates ["attic"] [("attic", ["light.attic"])] [] :=
  (ignore_list_only_suppresses_creation ["attic"] [] [("attic", ["light.attic"])]
    [] []).1 "attic" (by decide)

set_option maxHeartbeats 1000000 in
/-- C9 counterexample: with both phases enabled, an area whose normalised name
is in the ignore-list and which has no matching remote group appears in none of
the four summary collections: the run's summary is entirely empty although area
x was given in the input mapping, so the summary is not exhaustive. -/
theorem summary_omits_ignored_missing_area :
    sync_ha_alexa_groups false (fun _ => true) (fun _ => true) ["x"]
      [("x", [])] [] [] "update_only" true true = ⟨[], [], [], []⟩ := by decide

/-- Helper: in a filtered-and-mapped list built from a list whose image under
the mapping has no duplicates, a member's image occurs once when the filter
accepts it and never otherwise. -/
theorem count_mem_filter_map {α β : Type} [DecidableEq α] [DecidableEq β]
    (l : List α) (c : α → Bool) (f : α → β) (x : α) (hmem : x ∈ l)
    (hP : (l.map f).Nodup) :
    ((l.filter c).map f).count (f x) = if c x then 1 else 0 := by
  by_cases hc : c x = true
  · rw [if_pos hc]
    apply List.count_eq_one_of_mem
    · exact List.Nodup.sublist (List.Sublist.map _ (List.filter_sublist l)) hP
    · exact List.mem_map_of_mem _ (List.mem_filter.mpr ⟨hmem, hc⟩)
  · rw [if_neg hc]
    rw [List.count_eq_zero]
    intro hcon
    obtain ⟨p', hp', hpe⟩ := List.mem_map.mp hcon
    have hp'1 := List.mem_filter.mp hp'
    have hpe2 : p' = x := List.inj_on_of_nodup_map hP hp'1.1 hmem hpe
    rw [hpe2] at hp'1
    exact hc hp'1.2

set_option maxHeartbeats 1600000 in
/-- C9 (amended): with both phases enabled and with distinct normalised and
pretty area names, each input area's pretty name occurs exactly once across the
four summary collections when a matching group exists (entity sync) or when it
is missing but not ignored (creation), and zero times when it is missing and
ignored — the silently omitted case that falsifies the original claim. -/
theorem summary_exhaustive_characterisation (dryRun : Bool)
    (createSucceeds updateSucceeds : String → Bool) (ignored : List String)
    (ha_areas ha_to_alexa : List (String × List String))
    (alexa_groups : List GroupData) (mode : String) (area : String)
    (ids : List String) (hmem : (area, ids) ∈ ha_areas)
    (hN : (ha_areas.map (fun p => normalise_area_name p.1)).Nodup)
    (hP : (ha_areas.map (fun p =>
      convert_normalised_area_to_alexa_name (normalise_area_name p.1))).Nodup) :
    (sync_ha_alexa_groups dryRun createSucceeds updateSucceeds ignored ha_areas
        alexa_groups ha_to_alexa mode true true).countName
      (convert_normalised_area_to_alexa_name (normalise_area_name area)) =
      (if (dictGet? (dictOf (alexa_groups.map (fun g =>
            (normalise_area_name g.name, g))))
          (normalise_area_name area)).isSome
        then 1
        else if normalise_area_name area ∈ ignored then 0 else 1) := by
  unfold sync_ha_alexa_groups
  simp only [if_true]
  rw [summarize_countName, List.map_append, List.count_append]
  rw [syncGroupsPhase_names, syncEntitiesPhase_names]
  rw [creationCandidates_char ignored ha_areas alexa_groups hN]
  have hcount1 : (((ha_areas.map Prod.fst).filter (fun a =>
        decide (normalise_area_name a ∉
          alexa_groups.map (fun g => normalise_area_name g.name)) &&
        decide (normalise_area_name a ∉ ignored))).map (fun a =>
          convert_normalised_area_to_alexa_name (normalise_area_name a))).count
        (convert_normalised_area_to_alexa_name (normalise_area_name area)) =
      if decide (normalise_area_name area ∉
            alexa_groups.map (fun g => normalise_area_name g.name)) &&
          decide (normalise_area_name area ∉ ignored)
        then 1 else 0 := by
    rw [List.filter_map, List.map_map]
    have hinst := count_mem_filter_map ha_areas
      ((fun a =>
          decide (normalise_area_name a ∉
            alexa_groups.map (fun g => normalise_area_name g.name)) &&
          decide (normalise_area_name a ∉ ignored)) ∘ Prod.fst)
      ((fun a => convert_normalised_area_to_alexa_name (normalise_area_name a))
        ∘ Prod.fst)
      (area, ids) hmem (by simpa [Function.comp_def] using hP)
    simpa [Function.comp_def] using hinst
  have hcount2 : ((ha_areas.filter (fun p =>
        (dictGet? (dictOf (alexa_groups.map (fun g =>
            (normalise_area_name g.name, g))))
          (normalise_area_name p.1)).isSome)).map (fun p =>
          convert_normalised_area_to_alexa_name (normalise_area_name p.1))).count
        (convert_normalised_area_to_alexa_name (normalise_area_name area)) =
      if (dictGet? (dictOf (alexa_groups.map (fun g =>
            (normalise_area_name g.name, g))))
          (normalise_area_name area)).isSome
        then 1 else 0 := by
    have hinst := count_mem_filter_map ha_areas
      (fun p => (dictGet? (dictOf (alexa_groups.map (fun g =>
          (normalise_area_name g.name, g)))) (normalise_area_name p.1)).isSome)
      (fun p => convert_normalised_area_to_alexa_name (normalise_area_name p.1))
      (area, ids) hmem hP
    simpa using hinst
  rw [hcount1, hcount2]
  have hgn : (dictGet? (dictOf (alexa_groups.map (fun g =>
        (normalise_area_name g.name, g)))) (normalise_area_name area)).isSome ↔
      normalise_area_name area ∈
        alexa_groups.map (fun g => normalise_area_name g.name) := by
    rw [dictGet?_isSome_iff, dictOf_keys_mem, List.map_map]
    rfl
  by_cases hg : (dictGet? (dictOf (alexa_groups.map (fun g =>
      (normalise_area_name g.name, g)))) (normalise_area_name area)).isSome
  · have hmem_g := hgn.mp hg
    rw [if_pos hg, if_pos hg, if_neg]
    simp [hmem_g]
  · have hmem_g : normalise_area_name area ∉
        alexa_groups.map (fun g => normalise_area_name g.name) :=
      fun h => hg (hgn.mpr h)
    rw [if_neg hg, if_neg hg]
    by_cases hig : normalise_area_name area ∈ ignored
    · rw [if_pos hig, if_neg]
      simp [hig]
    · rw [if_neg hig, if_pos]
      simp only [Bool.and_eq_true, decide_eq_true_eq]
      exact ⟨hmem_g, hig⟩

/-- Witness for C9 (amended): a single area whose normalised name matches an
existing group is accounted exactly once across the four summary collections. -/
theorem summary_exhaustive_characterisation_witness :
    (sync_ha_alexa_groups false (fun _ => true) (fun _ => true) []
        [("kitchen", [])] [⟨"Kitchen", "g1", []⟩] [] "update_only" true
        true).countName
      (convert_normalised_area_to_alexa_name (normalise_area_name "kitchen")) =
      1 :=
  (summary_exhaustive_characterisation false (fun _ => true) (fun _ => true) []
    [("kitchen", [])] [] [⟨"Kitchen", "g1", []⟩] "update_only" "kitchen" []
    (by decide) (by decide) (by decide)).trans (by decide)
